import Mathlib

/-!
# Verification of the rpmkit dependency-graph engine (`rpmkit/rpmutils.py`)

Shallow embedding of the package dependency-graph engine of rpmkit:
package records and EVR comparison, grouping / latest-selection,
requirement graphs (forward and reversed adjacency maps), the standalone
probe, the removal-closure solver and the update matcher.

Python dicts keyed by package name are embedded as association lists
(`List (String × List String)`) with first-match lookup; Python's in-place
list/dict mutation is embedded by explicit state passing (every function
that mutates an argument in the source returns the final value of that
argument as part of its result); Python exceptions (`AssertionError`,
`ValueError`) are embedded as `Option`/`none` results.  Unbounded
recursion in the source is embedded with an explicit fuel parameter; the
top-level wrappers instantiate the fuel with a bound that is proved
sufficient (see the termination theorems below).
-/

namespace Rpmkit

/-- Lexicographic (code-point) comparison of char lists, Python's `<=` on
strings restricted to the `true`/`false` answer. -/
def charListLe : List Char → List Char → Bool
  | [], _ => true
  | _ :: _, [] => false
  | a :: as, b :: bs =>
    if a.toNat < b.toNat then true
    else if b.toNat < a.toNat then false
    else charListLe as bs

/-- Python string comparison `s1 <= s2` (lexicographic by code point). -/
def strLe (a b : String) : Bool := charListLe a.data b.data

/-- Strict version of `strLe`, used to state "strictly ascending". -/
def strLt (a b : String) : Prop := strLe a b = true ∧ a ≠ b

/-- Insertion step of the embedding of Python's `sorted` on strings. -/
def insertStr (x : String) : List String → List String
  | [] => [x]
  | y :: ys => if strLe x y then x :: y :: ys else y :: insertStr x ys

/-- Embedding of Python's `sorted` on lists of strings (stable, ascending
by code point). -/
def sortStr : List String → List String
  | [] => []
  | x :: xs => insertStr x (sortStr xs)

/-- First-match lookup in an association list, embedding Python's
`d.get(k, [])` on a name-keyed dict. -/
def lookupD (d : List (String × List String)) (k : String) : List String :=
  match d.find? (fun kv => kv.1 = k) with
  | some kv => kv.2
  | none => []

/-- Modelled from the spec: `rpmkit.utils.uniq` (the repository's order
preserving exact-duplicate removal, §4.2 "dedupe"), whose source file is
not part of the analysed snapshot.  Keeps the first occurrence of each
element. -/
def uniq : List String → List String
  | [] => []
  | x :: xs => x :: (uniq xs).filter (fun y => y ≠ x)

/-- Modelled from the spec: `rpmkit.utils.concat` (list concatenation of a
list of lists), whose source file is not part of the analysed snapshot. -/
def concat (xss : List (List String)) : List String := xss.flatten

/-- `rpmutils.ucat`: `uniq(concat(xss))`. -/
def ucat (xss : List (List String)) : List String := uniq (concat xss)

/-- A Python value occupying the `epoch` field of a package dict: `None`,
a string (rpmdb/yum style, e.g. `"(none)"`, `" "`, `"1"`), or an int. -/
inductive Epoch where
  | none
  | str (s : String)
  | int (n : Int)
deriving DecidableEq, Repr

/-- A package record `dict(name, version, release, epoch, arch)`
(`RPM_BASIC_KEYS`).  The epoch carries the raw Python value; the other
fields are strings. -/
structure Pkg where
  name : String
  version : String
  release : String
  epoch : Epoch
  arch : String
deriving DecidableEq, Repr

/-- Strip leading and trailing whitespace (Python `int()` ignores it). -/
def pyStrip (cs : List Char) : List Char :=
  ((cs.dropWhile Char.isWhitespace).reverse.dropWhile Char.isWhitespace).reverse

/-- Decimal value of a digit run. -/
def digitsToNat (cs : List Char) : Nat :=
  cs.foldl (fun n c => n * 10 + (c.toNat - 48)) 0

/-- Embedding of Python's `int(s)` on a string: strips whitespace, allows
one optional sign, then requires a non-empty run of decimal digits;
anything else raises `ValueError`, embedded as `none`. -/
def pyInt (s : String) : Option Int :=
  match pyStrip s.data with
  | [] => Option.none
  | '-' :: cs =>
    if cs ≠ [] ∧ cs.all Char.isDigit then some (-(digitsToNat cs : Int)) else Option.none
  | '+' :: cs =>
    if cs ≠ [] ∧ cs.all Char.isDigit then some (digitsToNat cs : Int) else Option.none
  | cs =>
    if cs ≠ [] ∧ cs.all Char.isDigit then some (digitsToNat cs : Int) else Option.none

/-- Embedding of `re.match(r".*(\d+).*", epoch)`: the pattern is only
anchored at the start and `.` does not cross a newline, so the match
succeeds exactly when the first line of the string contains a digit. -/
def reMatchHasDigit (s : String) : Bool :=
  (s.data.takeWhile (fun c => c ≠ '\n')).any Char.isDigit

/-- `rpmutils.normalize_arch`: `'(none)'` becomes `'noarch'`, anything
else is kept. -/
def normalize_arch (arch : String) : String :=
  if arch = "(none)" then "noarch" else arch

/-- `rpmutils.normalize_epoch`: `None` becomes `0`; a string is passed to
`int()` when the regex `.*(\d+).*` matches and becomes `0` otherwise; an
int is returned unchanged.  `none` is a raised `ValueError` (from
`int(epoch)` on a digit-containing but non-numeric string). -/
def normalize_epoch : Epoch → Option Int
  | Epoch.none => some 0
  | Epoch.str s => if reMatchHasDigit s then pyInt s else some 0
  | Epoch.int n => some n

/-- `rpmutils.normalize`: sets `p["arch"]` and `p["epoch"]` in place; the
embedding returns the record's final value (`none` when `normalize_epoch`
raises). -/
def normalize (p : Pkg) : Option Pkg :=
  match normalize_epoch p.epoch with
  | some e => some { p with arch := normalize_arch p.arch, epoch := Epoch.int e }
  | Option.none => Option.none

/-- Numeric reading of a raw epoch value, used by the EVR comparator.
Modelled from the spec: `yum.compareEVR` is an external library ("this
comparator must be supplied", §3); the spec's rule is that "epochs compare
as integers". -/
def epochNum : Epoch → Int
  | Epoch.none => 0
  | Epoch.str s => (pyInt s).getD 0
  | Epoch.int n => n

/-- One alternating numeric/alphabetic-run comparison step of the RPM
version comparator, on char lists, with explicit fuel.  Modelled from the
spec (§3): "version/release strings compare by splitting into alternating
numeric/alphabetic runs, numeric runs compared as integers, alphabetic
runs compared lexically". -/
def rpmvercmpAux : Nat → List Char → List Char → Int
  | 0, _, _ => 0
  | fuel + 1, a, b =>
    let a := a.dropWhile (fun c => ¬ c.isAlphanum)
    let b := b.dropWhile (fun c => ¬ c.isAlphanum)
    match a, b with
    | [], [] => 0
    | [], _ :: _ => -1
    | _ :: _, [] => 1
    | x :: xs, y :: ys =>
      if x.isDigit then
        if y.isDigit then
          let ra := (x :: xs).takeWhile Char.isDigit
          let rb := (y :: ys).takeWhile Char.isDigit
          let na := digitsToNat ra
          let nb := digitsToNat rb
          if na < nb then -1
          else if nb < na then 1
          else rpmvercmpAux fuel ((x :: xs).dropWhile Char.isDigit)
                 ((y :: ys).dropWhile Char.isDigit)
        else 1
      else
        if y.isDigit then -1
        else
          let ra := (x :: xs).takeWhile Char.isAlpha
          let rb := (y :: ys).takeWhile Char.isAlpha
          if charListLe ra rb then
            if charListLe rb ra then
              rpmvercmpAux fuel ((x :: xs).dropWhile Char.isAlpha)
                ((y :: ys).dropWhile Char.isAlpha)
            else -1
          else 1

/-- RPM version-segment comparison (numeric runs as integers beating
alphabetic runs, alphabetic runs lexically).  Modelled from the spec (§3);
the implementation in the source is the external `yum.compareEVR`. -/
def rpmvercmp (a b : String) : Int :=
  rpmvercmpAux (a.data.length + b.data.length + 1) a.data b.data

/-- Modelled from the spec: the external `yum.compareEVR` on two
`(epoch, version, release)` triples — lexicographic over the triple,
epochs as integers, version and release via `rpmvercmp` (§3).  Total: it
never raises. -/
def compareEVR (a b : Epoch × String × String) : Int :=
  if epochNum a.1 < epochNum b.1 then -1
  else if epochNum b.1 < epochNum a.1 then 1
  else
    let vc := rpmvercmp a.2.1 b.2.1
    if vc ≠ 0 then vc else rpmvercmp a.2.2 b.2.2

/-- `rpmutils.pcmp`: asserts that both records have the same name
(`AssertionError`, embedded as `none`) and otherwise compares the two
`(epoch, version, release)` projections with `yum.compareEVR`. -/
def pcmp (p1 p2 : Pkg) : Option Int :=
  if p1.name = p2.name then
    some (compareEVR (p1.epoch, p1.version, p1.release) (p2.epoch, p2.version, p2.release))
  else Option.none

/-- Insertion step of comparison-based sorting with the fallible
comparator `pcmp`: any comparison may raise (propagated as `none`). -/
def insertCmpM (cmp : Pkg → Pkg → Option Int) (x : Pkg) : List Pkg → Option (List Pkg)
  | [] => some [x]
  | y :: ys =>
    match cmp x y with
    | Option.none => Option.none
    | some c =>
      if c < 0 then some (x :: y :: ys)
      else (insertCmpM cmp x ys).map (fun zs => y :: zs)

/-- Embedding of Python 2's `sorted(packages, cmp=pcmp)`: a
comparison-based sort whose comparator may raise.  On a two-element list
it performs exactly the one comparison CPython performs; under a
comparator total on the list's elements it succeeds, like CPython. -/
def sortCmpM (cmp : Pkg → Pkg → Option Int) : List Pkg → Option (List Pkg)
  | [] => some []
  | x :: xs =>
    match sortCmpM cmp xs with
    | Option.none => Option.none
    | some s => insertCmpM cmp x s

/-- `rpmutils.find_latest`: asserts the list is non-empty
(`AssertionError`, embedded as `none`), sorts it with `pcmp` and takes the
last element. -/
def find_latest (packages : List Pkg) : Option Pkg :=
  if packages = [] then Option.none
  else
    match sortCmpM pcmp packages with
    | Option.none => Option.none
    | some s => s.getLast?

/-- Name comparison used by `sort_by_names` / `itemgetter("name")`. -/
def pkgNameLe (a b : Pkg) : Bool := strLe a.name b.name

/-- Insertion step of the embedding of
`sorted(xs, key=itemgetter("name"))`. -/
def insertPkg (x : Pkg) : List Pkg → List Pkg
  | [] => [x]
  | y :: ys => if pkgNameLe x y then x :: y :: ys else y :: insertPkg x ys

/-- `rpmutils.sort_by_names`: stable sort of package records by name. -/
def sort_by_names : List Pkg → List Pkg
  | [] => []
  | x :: xs => insertPkg x (sort_by_names xs)

/-- Embedding of `itertools.groupby(..., itemgetter("name"))` applied to
a list: maximal runs of consecutive records with equal names, each run
tagged with its key. -/
def groupRuns : List Pkg → List (String × List Pkg)
  | [] => []
  | x :: xs =>
    match groupRuns xs with
    | [] => [(x.name, [x])]
    | (k, g) :: rest =>
      if x.name = k then (k, x :: g) :: rest
      else (x.name, [x]) :: (k, g) :: rest

/-- `rpmutils.group_by_keys_g` at `keys=("name",)` (the instantiation
`find_latests` uses): sort globally by the key, then group consecutive
equal keys. -/
def group_by_keys_g (xs : List Pkg) : List (String × List Pkg) :=
  groupRuns (sort_by_names xs)

/-- Option-valued map over a list, propagating the first failure (the
embedding of a Python list comprehension whose body may raise). -/
def mapO {α β : Type} (f : α → Option β) : List α → Option (List β)
  | [] => some []
  | x :: xs =>
    match f x, mapO f xs with
    | some y, some ys => some (y :: ys)
    | _, _ => Option.none

/-- `rpmutils.find_latests` at its default `keys=("name",)`:
`find_latest` of every group. -/
def find_latests (packages : List Pkg) : Option (List Pkg) :=
  mapO (fun g => find_latest g.2) (group_by_keys_g packages)

/-- `list_to_dict_keyed_by_names(all_packages).get(n, [])`: the group for
`n` after a stable sort by name is the original records with that name in
input order, i.e. a filter. -/
def ref_lookup (all_packages : List Pkg) (n : String) : List Pkg :=
  all_packages.filter (fun q => q.name = n)

/-- `is_newer(p1, p2)` inside `find_updates_g`: `pcmp(p1, p2) > 0`. -/
def is_newer (p1 p2 : Pkg) : Option Bool :=
  (pcmp p1 p2).map (fun c => 0 < c)

/-- The per-candidate-list body of `find_updates_g`: normalize every
candidate (in place in the source) and keep the strictly newer ones. -/
def updatesFor (candidates : List Pkg) (p : Pkg) : Option (List Pkg) :=
  match mapO normalize candidates with
  | Option.none => Option.none
  | some cs =>
    cs.foldlM (fun u c =>
      match is_newer c p with
      | Option.none => Option.none
      | some b => some (if b then u ++ [c] else u)) []

/-- `rpmutils.find_updates_g` with explicit record state: returns the
materialized yields together with the final value of the caller's
`all_packages` records, whose candidate entries the source rewrites in
place via `normalize`.  The trailing Python-2 `sorted(updates)` (default
ordering on dicts) only permutes each yielded list and is not modelled;
no verified property concerns the order inside one yielded list. -/
def find_updates_full (all_packages packages : List Pkg) :
    Option (List (List Pkg) × List Pkg) :=
  match find_latests packages with
  | Option.none => Option.none
  | some latests =>
    let out := latests.foldlM (fun (acc : List (List Pkg)) p =>
      let candidates := ref_lookup all_packages p.name
      if candidates.isEmpty then some acc
      else
        match updatesFor candidates p with
        | Option.none => Option.none
        | some updates => some (if updates.isEmpty then acc else acc ++ [updates])) []
    match out with
    | Option.none => Option.none
    | some yss =>
      let finalAll := mapO (fun q =>
        if latests.any (fun p => p.name = q.name) then normalize q else some q) all_packages
      match finalAll with
      | Option.none => Option.none
      | some aps => some (yss, aps)

/-- A requirement relation map (`reqs`: package → required packages, or
`rreqs`: package → packages requiring it), a Python dict keyed by name. -/
abbrev ReqMap := List (String × List String)

/-- All names occurring in the value lists of a relation map. -/
def valsOf (rreqs : ReqMap) : List String := (rreqs.map Prod.snd).flatten

/-- Fuel bound sufficient for the removal-closure traversal: one more
than the number of distinct names occurring in the value lists. -/
def crBound (rreqs : ReqMap) : Nat := (valsOf rreqs).toFinset.card + 1

/-- The `for p in ps: yield from ...` loop of `_list_standalones_1_g`:
concatenates the yields of the recursive probe `rec` over the requirers. -/
def ls1Fold (rec : String → Option (List String)) :
    List String → List String → Option (List String)
  | [], out => some out
  | p :: ps, out =>
    match rec p with
    | Option.none => Option.none
    | some xs => ls1Fold rec ps (out ++ xs)

/-- `rpmutils._list_standalones_1_g` with explicit fuel: the recursive
generator probing whether `name` is a standalone.  `none` is exhausted
fuel; the wrapper `list_standalones_1_g` supplies fuel proved sufficient
(the budget `nrpms` strictly decreases at every recursive call). -/
def list_standalones_1F : Nat → String → ReqMap → ReqMap → Nat → List String →
    Option (List String)
  | 0, _, _, _, _, _ => Option.none
  | fuel + 1, name, reqs, rreqs, nrpms, excludes =>
    if name ∈ excludes then some []
    else
      let ps := lookupD rreqs name
      if ps.isEmpty then
        let qs := lookupD reqs name
        if qs.isEmpty || qs.length < nrpms then some [name] else some []
      else
        if excludes.any (fun e => ps.contains e) then some []
        else if nrpms ≤ ps.length then some []
        else
          ls1Fold (fun p => list_standalones_1F fuel p reqs rreqs (nrpms - 1) excludes)
            ps []

/-- `rpmutils._list_standalones_1_g` (materialized generator): the fuel
`nrpms + 1` is sufficient, see the termination theorem. -/
def list_standalones_1_g (name : String) (reqs rreqs : ReqMap) (nrpms : Nat)
    (excludes : List String) : Option (List String) :=
  list_standalones_1F (nrpms + 1) name reqs rreqs nrpms excludes

/-- The `for r in removes_next` loop of `_compute_removed_1`: each
iteration recurses (through `rec`) with the current accumulator plus `r`
and extends the accumulator with the not-yet-present part of the
recursive result. -/
def cr1Fold (rec : String → List String → Option (List String)) :
    List String → List String → Option (List String)
  | [], a => some a
  | r :: rest, a =>
    match rec r (a ++ [r]) with
    | Option.none => Option.none
    | some xs => cr1Fold rec rest (a ++ xs.filter (fun x => ¬ a.contains x))

/-- `rpmutils._compute_removed_1` with explicit fuel: collects, into the
accumulator it was handed, every package transitively requiring `remove`
(walking the reversed map `rreqs`), skipping names already accumulated.
Returns the final value of the (in the source, mutated in place)
accumulator. -/
def compute_removed_1F : Nat → String → ReqMap → List String → Option (List String)
  | 0, _, _, _ => Option.none
  | fuel + 1, remove, rreqs, acc =>
    cr1Fold (fun r a => compute_removed_1F fuel r rreqs a)
      (sortStr ((lookupD rreqs remove).filter (fun p => ¬ acc.contains p))) acc

/-- `rpmutils.compute_removed_g` (materialized generator) with explicit
state: processes `removes` in order; a name already excluded is skipped; a
closure touching an excluded name vetoes the entry and extends the
`excludes` list in place; otherwise the entry and its closure extend the
accumulator in place, which is yielded.  Returns
`(yields, final acc, final excludes)`. -/
def compute_removed_gF (fuel : Nat) (rreqs : ReqMap) :
    List String → List String → List String →
    Option (List (List String) × List String × List String)
  | [], acc, excludes => some ([], acc, excludes)
  | r :: rest, acc, excludes =>
    if r ∈ excludes then compute_removed_gF fuel rreqs rest acc excludes
    else
      match compute_removed_1F fuel r rreqs (acc ++ [r]) with
      | Option.none => Option.none
      | some xs =>
        if xs.any (fun x => x ∈ excludes) then
          compute_removed_gF fuel rreqs rest acc (excludes ++ [r] ++ xs)
        else
          let acc2 := acc ++ [r] ++ xs
          match compute_removed_gF fuel rreqs rest acc2 excludes with
          | Option.none => Option.none
          | some (ys, accF, exF) => some (acc2 :: ys, accF, exF)

/-- `rpmutils.compute_removed` with explicit state, on the path where the
caller supplies the reversed relation map `rreqs` (the `root`/RPM-database
path is an external collaborator and out of scope): `ucat` of the yields
of `compute_removed_g`, together with the final values of the `acc` and
`excludes` lists the source mutates in place. -/
def compute_removed_full (removes : List String) (rreqs : ReqMap)
    (acc excludes : List String) :
    Option (List String × List String × List String) :=
  match compute_removed_gF (crBound rreqs) rreqs removes acc excludes with
  | Option.none => Option.none
  | some (ys, accF, exF) => some (ucat ys, accF, exF)

/-- The return value of `rpmutils.compute_removed` (result list only). -/
def compute_removed (removes : List String) (rreqs : ReqMap)
    (acc excludes : List String) : Option (List String) :=
  (compute_removed_full removes rreqs acc excludes).map (fun r => r.1)

/-- The hidden process state of `rpmutils.compute_removed`: the module
level list objects created once for its default arguments `acc=[]` and
`excludes=[]`, shared and mutated across calls. -/
structure CRDefaults where
  acc : List String
  excludes : List String
deriving DecidableEq, Repr

/-- A call `compute_removed(removes, rreqs=rreqs)` that leaves `acc` and
`excludes` at their defaults: the default lists are passed (and mutated)
in place, so the state after the call is their final value. -/
def compute_removed_call (removes : List String) (rreqs : ReqMap)
    (st : CRDefaults) : Option (List String × CRDefaults) :=
  match compute_removed_full removes rreqs st.acc st.excludes with
  | Option.none => Option.none
  | some (res, accF, exF) => some (res, ⟨accF, exF⟩)

/-- The helper `get_cs(p, seen)` of
`list_required_rpms_not_required_by_others`: appends `p` to `seen` when
absent (a no-op at every call site of the loop, but modelled faithfully)
and returns the final `seen` together with the requirements of `p` not
yet seen whose requirers are all seen. -/
def get_cs (reqs rreqs : ReqMap) (p : String) (seen : List String) :
    List String × List String :=
  let seen2 := if p ∈ seen then seen else seen ++ [p]
  (seen2,
   (lookupD reqs p).filter (fun r => ¬ seen2.contains r ∧ (lookupD rreqs r).all (fun x => seen2.contains x)))

/-- The `while targets` loop of
`list_required_rpms_not_required_by_others`, with fuel (each nonempty
iteration strictly grows `result` by fresh names, so any fuel past the
graph size is sufficient).  `get_cs`'s shared `seen` list is the `result`
list, threaded through the per-target fold. -/
def lrnrLoop (reqs rreqs : ReqMap) : Nat → List String → List String → List String
  | 0, _, result => result
  | fuel + 1, targets, result =>
    if targets.isEmpty then result
    else
      let step := targets.foldl (fun (pr : List String × List (List String)) p =>
        let r := get_cs reqs rreqs p pr.1
        (r.1, pr.2 ++ [r.2])) (result, [])
      let targets2 := ucat step.2
      let result2 := if targets2.isEmpty then step.1 else step.1 ++ targets2
      lrnrLoop reqs rreqs fuel targets2 result2

/-- `rpmutils.list_required_rpms_not_required_by_others`, on its graph
part (the `reqs`/`rreqs` maps are supplied; building them from an RPM
database is an external collaborator): returns `[]` unless every requirer
of `rpmname` is in `[rpmname]`, then expands greedily to a fixed point. -/
def list_required_rpms_not_required_by_others (rpmname : String)
    (reqs rreqs : ReqMap) : List String :=
  let result := [rpmname]
  if ¬ ((lookupD rreqs rpmname).all (fun y => result.contains y)) then []
  else lrnrLoop reqs rreqs ((valsOf reqs).toFinset.card + 1) [rpmname] result

/-! ## Helper lemmas -/

theorem mem_uniq {x : String} : ∀ {l : List String}, x ∈ uniq l ↔ x ∈ l := by
  intro l
  induction l with
  | nil => simp [uniq]
  | cons y ys ih =>
    simp only [uniq, List.mem_cons, List.mem_filter]
    constructor
    · rintro (h | ⟨h, _⟩)
      · exact Or.inl h
      · exact Or.inr (ih.mp h)
    · rintro (h | h)
      · exact Or.inl h
      · by_cases hxy : x = y
        · exact Or.inl hxy
        · exact Or.inr ⟨ih.mpr h, by simpa using hxy⟩

theorem mem_ucat {x : String} {xss : List (List String)} :
    x ∈ ucat xss ↔ ∃ l ∈ xss, x ∈ l := by
  simp [ucat, concat, mem_uniq, List.mem_flatten]

theorem mem_insertStr {x y : String} : ∀ {l : List String},
    x ∈ insertStr y l ↔ x = y ∨ x ∈ l := by
  intro l
  induction l with
  | nil => simp [insertStr]
  | cons z zs ih =>
    simp only [insertStr]
    by_cases h : strLe y z
    · simp [h]
    · simp only [h, if_neg, Bool.false_eq_true, ite_false, List.mem_cons, ih]
      tauto

theorem mem_sortStr {x : String} : ∀ {l : List String}, x ∈ sortStr l ↔ x ∈ l := by
  intro l
  induction l with
  | nil => simp [sortStr]
  | cons y ys ih => simp [sortStr, mem_insertStr, ih]

theorem lookupD_subset_valsOf {d : ReqMap} {k x : String}
    (h : x ∈ lookupD d k) : x ∈ valsOf d := by
  induction d with
  | nil => simp [lookupD] at h
  | cons kv rest ih =>
    simp only [lookupD, List.find?] at h
    by_cases hk : kv.1 = k
    · simp only [valsOf, List.map_cons, List.flatten_cons, List.mem_append]
      rw [show (decide (kv.1 = k)) = true by simp [hk]] at h
      exact Or.inl h
    · rw [show (decide (kv.1 = k)) = false by simp [hk]] at h
      have : x ∈ valsOf rest := ih (by simpa [lookupD] using h)
      simp only [valsOf, List.map_cons, List.flatten_cons, List.mem_append]
      right
      simpa [valsOf] using this

/-! ## C7: safe removal set and non-leaf targets -/

/-- C7 (counterexample): for the self-requiring graph `{A requires A}`,
`requiredByOf(A) = {A}` is non-empty, yet
`list_required_rpms_not_required_by_others` does not return the empty
list — the leaf test only rejects requirers outside `[rpmname]` itself. -/
theorem c7_selfedge_counterexample :
    lookupD [("A", ["A"])] "A" ≠ [] ∧
    list_required_rpms_not_required_by_others "A" [("A", ["A"])] [("A", ["A"])] = ["A"] :=
  ⟨by decide, rfl⟩

/-- C7 (amended): the safe removal set operation returns the empty list
whenever some package other than the target itself requires the target; a
target whose only requirer is itself (a self-edge) is not rejected. -/
theorem c7_nonleaf_returns_empty (t y : String) (reqs rreqs : ReqMap)
    (hy : y ∈ lookupD rreqs t) (hne : y ≠ t) :
    list_required_rpms_not_required_by_others t reqs rreqs = [] := by
  have hall : ¬ ((lookupD rreqs t).all (fun z => ([t] : List String).contains z) = true) := by
    intro h
    have h2 := List.all_eq_true.mp h y hy
    simp at h2
    exact hne h2
  simp only [list_required_rpms_not_required_by_others]
  rw [if_pos hall]

/-- C7 (witness): a concrete non-leaf target, rejected. -/
theorem c7_nonleaf_returns_empty_witness :
    "U" ∈ lookupD [("T", ["U"])] "T" ∧ ("U" : String) ≠ "T" ∧
    list_required_rpms_not_required_by_others "T" [] [("T", ["U"])] = [] :=
  ⟨by decide, by decide,
    c7_nonleaf_returns_empty "T" "U" [] [("T", ["U"])] (by decide) (by decide)⟩

/-! ## C2: monotonicity of the exclude set -/

/-- `compute_removed_g` on an exhausted removal list. -/
theorem gF_nil (fuel : Nat) (rreqs : ReqMap) (acc ex : List String) :
    compute_removed_gF fuel rreqs [] acc ex = some ([], acc, ex) := rfl

/-- `compute_removed_g` step: an already-excluded entry is skipped. -/
theorem gF_cons_skip {fuel : Nat} {rreqs : ReqMap} {r : String} {rest acc ex : List String}
    (hr : r ∈ ex) :
    compute_removed_gF fuel rreqs (r :: rest) acc ex =
      compute_removed_gF fuel rreqs rest acc ex := by
  simp [compute_removed_gF, hr]

/-- `compute_removed_g` step: exhausted closure fuel propagates. -/
theorem gF_cons_fail {fuel : Nat} {rreqs : ReqMap} {r : String} {rest acc ex : List String}
    (hr : r ∉ ex)
    (hx : compute_removed_1F fuel r rreqs (acc ++ [r]) = Option.none) :
    compute_removed_gF fuel rreqs (r :: rest) acc ex = Option.none := by
  simp [compute_removed_gF, hr, hx]

/-- `compute_removed_g` step: a closure meeting the excludes list vetoes
the entry and extends the working excludes. -/
theorem gF_cons_veto {fuel : Nat} {rreqs : ReqMap} {r : String} {rest acc ex xs : List String}
    (hr : r ∉ ex)
    (hx : compute_removed_1F fuel r rreqs (acc ++ [r]) = some xs)
    (ha : xs.any (fun x => decide (x ∈ ex)) = true) :
    compute_removed_gF fuel rreqs (r :: rest) acc ex =
      compute_removed_gF fuel rreqs rest acc (ex ++ [r] ++ xs) := by
  simp [compute_removed_gF, hr, hx, ha]

/-- `compute_removed_g` step: an unvetoed entry extends the accumulator,
which is yielded. -/
theorem gF_cons_pass {fuel : Nat} {rreqs : ReqMap} {r : String} {rest acc ex xs : List String}
    (hr : r ∉ ex)
    (hx : compute_removed_1F fuel r rreqs (acc ++ [r]) = some xs)
    (ha : xs.any (fun x => decide (x ∈ ex)) = false) :
    compute_removed_gF fuel rreqs (r :: rest) acc ex =
      (compute_removed_gF fuel rreqs rest (acc ++ [r] ++ xs) ex).map
        (fun res => ((acc ++ [r] ++ xs) :: res.1, res.2)) := by
  simp only [compute_removed_gF, hr, ite_false, if_false, hx, ha]
  cases compute_removed_gF fuel rreqs rest (acc ++ [r] ++ xs) ex with
  | none => rfl
  | some res => rfl

/-- C2 (counterexample): the removal closure solver is not monotonic in
its exclude set.  Graph: `X` and `Y` require `P`; `Y` requires `Q`.  With
`E1 = {X} ⊆ E2 = {X, P}` and `toRemove = [P, Q]`: under `E1` the veto of
`P` absorbs `Y` into the working excludes, which then vetoes `Q` (result
size 0); under `E2`, `P` is skipped outright, nothing is absorbed, and
`Q`'s closure `{Q, Y}` is returned (result size 2 > 0). -/
theorem c2_counterexample :
    (["X"] : List String) ⊆ ["X", "P"] ∧
    compute_removed ["P", "Q"] [("P", ["X", "Y"]), ("Q", ["Y"])] [] ["X"] = some [] ∧
    compute_removed ["P", "Q"] [("P", ["X", "Y"]), ("Q", ["Y"])] [] ["X", "P"] =
      some ["Q", "Y"] ∧
    ¬ ((["Q", "Y"] : List String).length ≤ ([] : List String).length) :=
  ⟨by decide, rfl, rfl, by decide⟩

/-- C2 (amended): monotonicity does hold for single-entry removal lists:
for `toRemove = [r]` and `E1 ⊆ E2`, the result under `E2` is no larger
than the result under `E1` (it is the same set, or empty).  For removal
lists with more than one entry the property fails, because a veto under
the smaller exclude set grows the working excludes and can block later
entries that survive under the larger set (see the counterexample). -/
theorem c2_singleton_monotonic (rreqs : ReqMap) (r : String) (e1 e2 o1 o2 : List String)
    (hsub : e1 ⊆ e2)
    (h1 : compute_removed [r] rreqs [] e1 = some o1)
    (h2 : compute_removed [r] rreqs [] e2 = some o2) :
    o2.length ≤ o1.length := by
  by_cases hr2 : r ∈ e2
  · rw [show compute_removed [r] rreqs [] e2 = some [] by
      simp [compute_removed, compute_removed_full, gF_cons_skip hr2, gF_nil, ucat,
        concat, uniq]] at h2
    have : o2 = [] := by injection h2 with h; exact h.symm
    simp [this]
  · have hr1 : r ∉ e1 := fun h => hr2 (hsub h)
    cases hxs : compute_removed_1F (crBound rreqs) r rreqs ([] ++ [r]) with
    | none =>
      rw [show compute_removed [r] rreqs [] e2 = Option.none by
        simp [compute_removed, compute_removed_full, gF_cons_fail hr2 hxs]] at h2
      exact absurd h2 (by simp)
    | some xs =>
      by_cases ha2 : xs.any (fun x => decide (x ∈ e2)) = true
      · rw [show compute_removed [r] rreqs [] e2 = some [] by
          simp [compute_removed, compute_removed_full, gF_cons_veto hr2 hxs ha2,
            gF_nil, ucat, concat, uniq]] at h2
        have : o2 = [] := by injection h2 with h; exact h.symm
        simp [this]
      · have ha1 : (xs.any (fun x => decide (x ∈ e1))) = false := by
          rw [Bool.eq_false_iff]
          intro h
          rcases List.any_eq_true.mp h with ⟨x, hx, hdx⟩
          exact ha2 (List.any_eq_true.mpr ⟨x, hx, by simp at hdx ⊢; exact hsub hdx⟩)
        have ha2f : (xs.any (fun x => decide (x ∈ e2))) = false := by
          rw [Bool.eq_false_iff]; exact ha2
        rw [show compute_removed [r] rreqs [] e1 =
            some (ucat [[] ++ [r] ++ xs]) by
          simp [compute_removed, compute_removed_full,
            gF_cons_pass hr1 hxs ha1, gF_nil]] at h1
        rw [show compute_removed [r] rreqs [] e2 =
            some (ucat [[] ++ [r] ++ xs]) by
          simp [compute_removed, compute_removed_full,
            gF_cons_pass hr2 hxs ha2f, gF_nil]] at h2
        have : o1 = o2 := by
          rw [← Option.some_inj, ← h1, ← h2]
        rw [this]

/-- C2 (witness): the amended monotonicity at a concrete instance. -/
theorem c2_singleton_monotonic_witness :
    ([] : List String) ⊆ ["V"] ∧
    compute_removed ["W"] [("W", [])] [] [] = some ["W"] ∧
    compute_removed ["W"] [("W", [])] [] ["V"] = some ["W"] ∧
    (["W"] : List String).length ≤ (["W"] : List String).length :=
  ⟨by decide, rfl, rfl,
    c2_singleton_monotonic [("W", [])] "W" [] ["V"] ["W"] ["W"] (by decide) rfl rfl⟩

/-! ## C3: mutation of caller-supplied collections -/

/-- The final `acc` and `excludes` of `compute_removed_g` always extend
the supplied lists (entries are only ever appended, never removed). -/
theorem gF_extends {fuel : Nat} {rreqs : ReqMap} :
    ∀ {removes acc ex : List String}
      {out : List (List String) × List String × List String},
      compute_removed_gF fuel rreqs removes acc ex = some out →
      (∃ d, out.2.1 = acc ++ d) ∧ (∃ d, out.2.2 = ex ++ d) := by
  intro removes
  induction removes with
  | nil =>
    intro acc ex out h
    rw [gF_nil] at h
    injection h with h
    exact ⟨⟨[], by simp [← h]⟩, ⟨[], by simp [← h]⟩⟩
  | cons r rest ih =>
    intro acc ex out h
    by_cases hr : r ∈ ex
    · rw [gF_cons_skip hr] at h
      exact ih h
    · cases hxs : compute_removed_1F fuel r rreqs (acc ++ [r]) with
      | none => rw [gF_cons_fail hr hxs] at h; exact absurd h (by simp)
      | some xs =>
        cases ha : xs.any (fun x => decide (x ∈ ex)) with
        | true =>
          rw [gF_cons_veto hr hxs ha] at h
          rcases ih h with ⟨⟨d1, hd1⟩, ⟨d2, hd2⟩⟩
          exact ⟨⟨d1, hd1⟩, ⟨[r] ++ xs ++ d2, by simp [hd2]⟩⟩
        | false =>
          rw [gF_cons_pass hr hxs ha] at h
          cases hg : compute_removed_gF fuel rreqs rest (acc ++ [r] ++ xs) ex with
          | none => rw [hg] at h; exact absurd h (by simp)
          | some out2 =>
            rw [hg] at h
            injection h with h
            rcases ih hg with ⟨⟨d1, hd1⟩, ⟨d2, hd2⟩⟩
            refine ⟨⟨[r] ++ xs ++ d1, ?_⟩, ⟨d2, ?_⟩⟩
            · rw [← h]; simpa using hd1
            · rw [← h]; exact hd2

/-- Inversion of `compute_removed_full` to the underlying generator. -/
theorem compute_removed_full_inv {removes acc ex res accF exF : List String}
    {rreqs : ReqMap}
    (h : compute_removed_full removes rreqs acc ex = some (res, accF, exF)) :
    ∃ ys, compute_removed_gF (crBound rreqs) rreqs removes acc ex =
        some (ys, accF, exF) ∧ res = ucat ys := by
  unfold compute_removed_full at h
  cases hg : compute_removed_gF (crBound rreqs) rreqs removes acc ex with
  | none => rw [hg] at h; exact absurd h (by simp)
  | some t =>
    rcases t with ⟨ys, a, e⟩
    rw [hg] at h
    injection h with h
    injection h with h1 h2
    injection h2 with h2 h3
    subst h1 h2 h3
    exact ⟨ys, rfl, rfl⟩

/-- Elements produced by `mapO` come from applying `f` to a source
element. -/
theorem mapO_mem_src {α β : Type} {f : α → Option β} :
    ∀ {l : List α} {out : List β}, mapO f l = some out →
      ∀ b ∈ out, ∃ a ∈ l, f a = some b := by
  intro l
  induction l with
  | nil =>
    intro out h b hb
    simp [mapO] at h
    subst h
    exact absurd hb (by simp)
  | cons x xs ih =>
    intro out h b hb
    simp only [mapO] at h
    cases hfx : f x with
    | none => rw [hfx] at h; exact absurd h (by simp)
    | some y =>
      cases hmx : mapO f xs with
      | none => rw [hfx, hmx] at h; exact absurd h (by simp)
      | some ys =>
        rw [hfx, hmx] at h
        injection h with h
        subst h
        rcases List.mem_cons.mp hb with hb | hb
        · exact ⟨x, by simp, by rw [hfx, hb]⟩
        · rcases ih hmx b hb with ⟨a, ha, hfa⟩
          exact ⟨a, by simp [ha], hfa⟩

/-- Inversion of `find_updates_full` to its final-state `mapO`. -/
theorem find_updates_full_inv {aps ps : List Pkg} {out : List (List Pkg)}
    {apsF : List Pkg}
    (h : find_updates_full aps ps = some (out, apsF)) :
    ∃ latests, find_latests ps = some latests ∧
      mapO (fun q => if latests.any (fun p => p.name = q.name) then normalize q
        else some q) aps = some apsF := by
  unfold find_updates_full at h
  cases hl : find_latests ps with
  | none => rw [hl] at h; exact absurd h (by simp)
  | some latests =>
    rw [hl] at h
    simp only at h
    cases ho : latests.foldlM (fun (acc : List (List Pkg)) p =>
        let candidates := ref_lookup aps p.name
        if candidates.isEmpty then some acc
        else
          match updatesFor candidates p with
          | Option.none => Option.none
          | some updates =>
            some (if updates.isEmpty then acc else acc ++ [updates])) [] with
    | none => rw [ho] at h; exact absurd h (by simp)
    | some yss =>
      rw [ho] at h
      cases hm : mapO (fun q => if latests.any (fun p => p.name = q.name)
          then normalize q else some q) aps with
      | none => rw [hm] at h; exact absurd h (by simp)
      | some aps2 =>
        rw [hm] at h
        injection h with h
        injection h with h1 h2
        exact ⟨latests, rfl, by rw [hm, h2]⟩

/-- `normalize` is the identity on an already-normalized record (integer
epoch, arch not `"(none)"`). -/
theorem normalize_fixed {p : Pkg} {n : Int} (he : p.epoch = Epoch.int n)
    (ha : p.arch ≠ "(none)") : normalize p = some p := by
  cases p with
  | mk nm v rl e ar =>
    simp only at he ha
    subst he
    simp [normalize, normalize_epoch, normalize_arch, ha]

/-- C3 (counterexample): the engine does mutate caller-supplied
collections.  `compute_removed` on graph `{E requires D}` with
`excludes=["E"]` and `toRemove=["D"]` vetoes and extends the caller's
excludes list to `["E","D","D","E"]`; `find_updates_g` normalizes the
candidate records of `all_packages` in place, rewriting
`{epoch: "1", arch: "(none)"}` to `{epoch: 1, arch: "noarch"}`. -/
theorem c3_counterexample :
    compute_removed_full ["D"] [("D", ["E"])] [] ["E"] =
      some ([], [], ["E", "D", "D", "E"]) ∧
    (["E", "D", "D", "E"] : List String) ≠ ["E"] ∧
    find_updates_full [⟨"a", "1.0", "1", Epoch.str "1", "(none)"⟩]
        [⟨"a", "1.0", "1", Epoch.int 0, "x86_64"⟩] =
      some ([[⟨"a", "1.0", "1", Epoch.int 1, "noarch"⟩]],
        [⟨"a", "1.0", "1", Epoch.int 1, "noarch"⟩]) ∧
    (⟨"a", "1.0", "1", Epoch.int 1, "noarch"⟩ : Pkg) ≠
      ⟨"a", "1.0", "1", Epoch.str "1", "(none)"⟩ :=
  ⟨rfl, by decide, rfl, by decide⟩

/-- C3 (amended): the engine mutates caller-supplied collections only in
these controlled ways: `compute_removed` (and `compute_removed_g`) only
ever append to the caller's `acc` and `excludes` lists, keeping the
supplied contents as a prefix; `normalize` rewrites a record to its
normalized form and leaves an already-normalized record unchanged; and
every record in `find_updates_g`'s final `all_packages` state is either an
untouched original or the normalized form of an original. -/
theorem c3_mutation_shape :
    (∀ (removes : List String) (rreqs : ReqMap) (acc ex res accF exF : List String),
      compute_removed_full removes rreqs acc ex = some (res, accF, exF) →
      (∃ d, accF = acc ++ d) ∧ (∃ d, exF = ex ++ d)) ∧
    (∀ (p : Pkg) (n : Int), p.epoch = Epoch.int n → p.arch ≠ "(none)" →
      normalize p = some p) ∧
    (∀ (aps ps : List Pkg) (out : List (List Pkg)) (apsF : List Pkg),
      find_updates_full aps ps = some (out, apsF) →
      ∀ q ∈ apsF, q ∈ aps ∨ ∃ q₀ ∈ aps, normalize q₀ = some q) := by
  refine ⟨?_, ?_, ?_⟩
  · intro removes rreqs acc ex res accF exF h
    rcases compute_removed_full_inv h with ⟨ys, hg, _⟩
    exact gF_extends hg
  · intro p n he ha
    exact normalize_fixed he ha
  · intro aps ps out apsF h q hq
    rcases find_updates_full_inv h with ⟨latests, _, hm⟩
    rcases mapO_mem_src hm q hq with ⟨q₀, hq₀, hf⟩
    by_cases hc : latests.any (fun p => p.name = q₀.name)
    · rw [if_pos hc] at hf
      exact Or.inr ⟨q₀, hq₀, hf⟩
    · rw [if_neg hc] at hf
      injection hf with hf
      exact Or.inl (hf ▸ hq₀)

/-- C3 (witness): the amended mutation shape at concrete inputs. -/
theorem c3_mutation_shape_witness :
    ((∃ d, (["G", "G"] : List String) = [] ++ d) ∧
      (∃ d, (["H"] : List String) = ["H"] ++ d)) ∧
    normalize ⟨"b", "2.0", "3", Epoch.int 4, "i686"⟩ =
      some ⟨"b", "2.0", "3", Epoch.int 4, "i686"⟩ ∧
    (∀ q ∈ ([⟨"b", "2.0", "3", Epoch.int 4, "i686"⟩] : List Pkg),
      q ∈ ([⟨"b", "2.0", "3", Epoch.int 4, "i686"⟩] : List Pkg) ∨
      ∃ q₀ ∈ ([⟨"b", "2.0", "3", Epoch.int 4, "i686"⟩] : List Pkg),
        normalize q₀ = some q) := by
  obtain ⟨h1, h2, h3⟩ := c3_mutation_shape
  refine ⟨h1 ["G"] [("Z", [])] [] ["H"] ["G"] ["G", "G"] ["H"] rfl, ?_, ?_⟩
  · exact h2 ⟨"b", "2.0", "3", Epoch.int 4, "i686"⟩ 4 rfl (by decide)
  · exact h3 [⟨"b", "2.0", "3", Epoch.int 4, "i686"⟩] [] [] _ rfl

/-! ## C6: excluded names never appear in an output set -/

/-- Every name inside any list yielded by `compute_removed_g` avoids any
fixed set `E0` contained in the working excludes, provided the incoming
accumulator avoids it. -/
theorem gF_yields_avoid {fuel : Nat} {rreqs : ReqMap} {E0 : List String} :
    ∀ {removes acc ex : List String}
      {out : List (List String) × List String × List String},
      E0 ⊆ ex → (∀ x ∈ acc, x ∉ E0) →
      compute_removed_gF fuel rreqs removes acc ex = some out →
      ∀ l ∈ out.1, ∀ x ∈ l, x ∉ E0 := by
  intro removes
  induction removes with
  | nil =>
    intro acc ex out _ _ h
    rw [gF_nil] at h
    injection h with h
    subst h
    intro l hl
    exact absurd hl (by simp)
  | cons r rest ih =>
    intro acc ex out hsub hacc h
    by_cases hr : r ∈ ex
    · rw [gF_cons_skip hr] at h
      exact ih hsub hacc h
    · cases hxs : compute_removed_1F fuel r rreqs (acc ++ [r]) with
      | none => rw [gF_cons_fail hr hxs] at h; exact absurd h (by simp)
      | some xs =>
        cases ha : xs.any (fun x => decide (x ∈ ex)) with
        | true =>
          rw [gF_cons_veto hr hxs ha] at h
          exact ih (fun x hx => by simp [hsub hx]) hacc h
        | false =>
          have hxsE : ∀ x ∈ xs, x ∉ E0 := by
            intro x hx hxE
            have : xs.any (fun x => decide (x ∈ ex)) = true :=
              List.any_eq_true.mpr ⟨x, hx, by simp [hsub hxE]⟩
            rw [ha] at this
            exact absurd this (by simp)
          have hacc2 : ∀ x ∈ acc ++ [r] ++ xs, x ∉ E0 := by
            intro x hx
            rcases List.mem_append.mp hx with hx | hx
            · rcases List.mem_append.mp hx with hx | hx
              · exact hacc x hx
              · have : x = r := by simpa using hx
                subst this
                exact fun hxE => hr (hsub hxE)
            · exact hxsE x hx
          rw [gF_cons_pass hr hxs ha] at h
          cases hg : compute_removed_gF fuel rreqs rest (acc ++ [r] ++ xs) ex with
          | none => rw [hg] at h; exact absurd h (by simp)
          | some out2 =>
            rw [hg] at h
            injection h with h
            subst h
            intro l hl
            rcases List.mem_cons.mp hl with hl | hl
            · subst hl
              exact hacc2
            · exact ih hsub hacc2 hg l hl

/-- The loop of the standalone probe preserves a per-name invariant. -/
theorem ls1Fold_avoid {rec : String → Option (List String)} {P : String → Prop}
    (hrec : ∀ p xs, rec p = some xs → ∀ x ∈ xs, P x) :
    ∀ {ps out0 out : List String}, ls1Fold rec ps out0 = some out →
      (∀ x ∈ out0, P x) → ∀ x ∈ out, P x := by
  intro ps
  induction ps with
  | nil =>
    intro out0 out h h0
    simp only [ls1Fold] at h
    injection h with h
    subst h
    exact h0
  | cons p ps ih =>
    intro out0 out h h0
    simp only [ls1Fold] at h
    cases hp : rec p with
    | none => rw [hp] at h; exact absurd h (by simp)
    | some xs =>
      rw [hp] at h
      refine ih h ?_
      intro x hx
      rcases List.mem_append.mp hx with hx | hx
      · exact h0 x hx
      · exact hrec p xs hp x hx

/-- Every name yielded by the standalone probe avoids the excludes
list. -/
theorem ls1F_avoid {reqs rreqs : ReqMap} :
    ∀ (fuel : Nat) {name : String} {nrpms : Nat} {excludes out : List String},
      list_standalones_1F fuel name reqs rreqs nrpms excludes = some out →
      ∀ x ∈ out, x ∉ excludes := by
  intro fuel
  induction fuel with
  | zero =>
    intro name nr ex out h
    exact absurd h (by simp [list_standalones_1F])
  | succ fuel ih =>
    intro name nr ex out h
    simp only [list_standalones_1F] at h
    by_cases hname : name ∈ ex
    · rw [if_pos hname] at h
      injection h with h
      subst h
      intro x hx
      exact absurd hx (by simp)
    · rw [if_neg hname] at h
      by_cases hps : (lookupD rreqs name).isEmpty
      · rw [if_pos hps] at h
        by_cases hqs : (lookupD reqs name).isEmpty || (lookupD reqs name).length < nr
        · rw [if_pos hqs] at h
          injection h with h
          subst h
          intro x hx
          have : x = name := by simpa using hx
          subst this
          exact hname
        · rw [if_neg hqs] at h
          injection h with h
          subst h
          intro x hx
          exact absurd hx (by simp)
      · rw [if_neg hps] at h
        by_cases hany : ex.any (fun e => (lookupD rreqs name).contains e)
        · rw [if_pos hany] at h
          injection h with h
          subst h
          intro x hx
          exact absurd hx (by simp)
        · rw [if_neg hany] at h
          by_cases hlen : nr ≤ (lookupD rreqs name).length
          · rw [if_pos hlen] at h
            injection h with h
            subst h
            intro x hx
            exact absurd hx (by simp)
          · rw [if_neg hlen] at h
            exact ls1Fold_avoid (fun p xs hp => ih hp) h (by simp)

/-- C6: no caller-excluded name ever appears in the output of the removal
closure solver (`compute_removed` with a fresh accumulator) or of the
standalone probe (`_list_standalones_1_g`), over every requirement graph,
removal list / candidate name, and exclusion set. -/
theorem c6_excluded_never_output :
    (∀ (removes : List String) (rreqs : ReqMap) (E res : List String),
      compute_removed removes rreqs [] E = some res → ∀ x ∈ res, x ∉ E) ∧
    (∀ (name : String) (reqs rreqs : ReqMap) (nrpms : Nat) (E out : List String),
      list_standalones_1_g name reqs rreqs nrpms E = some out →
      ∀ x ∈ out, x ∉ E) := by
  constructor
  · intro removes rreqs E res h x hx
    simp only [compute_removed] at h
    cases hf : compute_removed_full removes rreqs [] E with
    | none => rw [hf] at h; exact absurd h (by simp)
    | some t =>
      rcases t with ⟨res', accF, exF⟩
      rw [hf] at h
      injection h with h
      simp only at h
      subst h
      rcases compute_removed_full_inv hf with ⟨ys, hg, hres⟩
      subst hres
      rcases mem_ucat.mp hx with ⟨l, hl, hxl⟩
      exact gF_yields_avoid (List.Subset.refl E) (by simp) hg l hl x hxl
  · intro name reqs rreqs nrpms E out h
    exact ls1F_avoid (nrpms + 1) h

/-- C6 (witness): the invariant at concrete inputs. -/
theorem c6_excluded_never_output_witness :
    (∀ x ∈ (["M", "N"] : List String), x ∉ (["K"] : List String)) ∧
    (∀ x ∈ (["S"] : List String), x ∉ (["K"] : List String)) := by
  obtain ⟨h1, h2⟩ := c6_excluded_never_output
  exact ⟨h1 ["M"] [("M", ["N"])] ["K"] ["M", "N"] rfl,
    h2 "S" [] [] 1 ["K"] ["S"] rfl⟩

/-! ## C8: termination of the recursive traversals -/

/-- Value names of the reversed map not yet present in the accumulator:
the decreasing measure of `_compute_removed_1`'s recursion. -/
def unseen (rreqs : ReqMap) (acc : List String) : Finset String :=
  (valsOf rreqs).toFinset.filter (fun v => v ∉ acc)

/-- `_compute_removed_1` succeeds whenever the fuel exceeds the number of
not-yet-accumulated value names: every recursive call is on an
accumulator that strictly extends the entry accumulator by a fresh value
name, even across the in-place `acc.extend` mutations of the loop. -/
theorem cr1F_isSome {rreqs : ReqMap} :
    ∀ (fuel : Nat) (remove : String) (acc : List String),
      (unseen rreqs acc).card < fuel →
      (compute_removed_1F fuel remove rreqs acc).isSome = true := by
  intro fuel
  induction fuel with
  | zero => intro remove acc h; exact absurd h (Nat.not_lt_zero _)
  | succ fuel ih =>
    intro remove acc hcard
    simp only [compute_removed_1F]
    have key : ∀ (l : List String), (∀ r ∈ l, r ∈ valsOf rreqs ∧ r ∉ acc) →
        ∀ (a : List String), (∀ x ∈ acc, x ∈ a) →
        (cr1Fold (fun r a => compute_removed_1F fuel r rreqs a) l a).isSome = true := by
      intro l
      induction l with
      | nil => intro _ a _; simp [cr1Fold]
      | cons r rest ihl =>
        intro hl a hsub
        obtain ⟨hrV, hrA⟩ := hl r (by simp)
        have hlt : (unseen rreqs (a ++ [r])).card < fuel := by
          have hsubset : unseen rreqs (a ++ [r]) ⊆ (unseen rreqs acc).erase r := by
            intro x hx
            simp only [unseen, Finset.mem_filter, List.mem_toFinset,
              Finset.mem_erase] at hx ⊢
            rcases hx with ⟨hxV, hxA⟩
            refine ⟨fun hxr => hxA (by simp [hxr]), hxV, fun hxacc => hxA ?_⟩
            simp [hsub x hxacc]
          have hrin : r ∈ unseen rreqs acc := by
            simp [unseen, hrV, hrA]
          have h1 : (unseen rreqs (a ++ [r])).card ≤ ((unseen rreqs acc).erase r).card :=
            Finset.card_le_card hsubset
          have h2 : ((unseen rreqs acc).erase r).card < (unseen rreqs acc).card :=
            Finset.card_erase_lt_of_mem hrin
          omega
        have hsome := ih r (a ++ [r]) hlt
        simp only [cr1Fold]
        cases hx : compute_removed_1F fuel r rreqs (a ++ [r]) with
        | none => rw [hx] at hsome; exact absurd hsome (by simp)
        | some xs =>
          refine ihl (fun r' hr' => hl r' (by simp [hr'])) _ ?_
          intro x hx2
          simp [hsub x hx2]
    apply key
    · intro r hr
      have hr2 := mem_sortStr.mp hr
      have hr3 := List.mem_filter.mp hr2
      refine ⟨lookupD_subset_valsOf hr3.1, ?_⟩
      simpa using hr3.2
    · intro x hx
      exact hx

/-- The probe loop succeeds when every recursive probe succeeds. -/
theorem ls1Fold_isSome {rec : String → Option (List String)}
    (hrec : ∀ p, (rec p).isSome = true) :
    ∀ (ps out : List String), (ls1Fold rec ps out).isSome = true := by
  intro ps
  induction ps with
  | nil => intro out; simp [ls1Fold]
  | cons p ps ihp =>
    intro out
    simp only [ls1Fold]
    cases hp : rec p with
    | none => have := hrec p; rw [hp] at this; exact absurd this (by simp)
    | some xs => exact ihp _

/-- The standalone probe succeeds whenever the fuel exceeds the budget:
the budget strictly decreases at every recursive call (recursion only
happens when `0 < |requirers| < nrpms`, so `nrpms ≥ 2` there), on every
graph, cyclic or not. -/
theorem ls1F_isSome {reqs rreqs : ReqMap} :
    ∀ (fuel : Nat) (name : String) (nrpms : Nat) (excludes : List String),
      nrpms < fuel →
      (list_standalones_1F fuel name reqs rreqs nrpms excludes).isSome = true := by
  intro fuel
  induction fuel with
  | zero => intro _ nr _ h; exact absurd h (Nat.not_lt_zero _)
  | succ fuel ih =>
    intro name nr ex hlt
    simp only [list_standalones_1F]
    by_cases hname : name ∈ ex
    · simp [hname]
    · rw [if_neg hname]
      by_cases hps : (lookupD rreqs name).isEmpty
      · rw [if_pos hps]
        split <;> simp
      · rw [if_neg hps]
        split
        · simp
        · split
          · simp
          · next hlen =>
            apply ls1Fold_isSome
            intro p
            apply ih
            have hne : 1 ≤ (lookupD rreqs name).length := by
              cases hl : lookupD rreqs name with
              | nil => rw [hl] at hps; exact (hps rfl).elim
              | cons y ys => simp [hl]
            omega

/-- C8: on every finite requirement graph — cycles and self-edges
included — every budget and every exclusion set, both the standalone
probe (with the fuel its wrapper supplies) and the removal-closure
traversal (with the fuel `compute_removed` supplies) terminate with a
result. -/
theorem c8_traversals_terminate :
    (∀ (rreqs : ReqMap) (remove : String) (acc : List String),
      (compute_removed_1F (crBound rreqs) remove rreqs acc).isSome = true) ∧
    (∀ (name : String) (reqs rreqs : ReqMap) (nrpms : Nat) (excludes : List String),
      (list_standalones_1_g name reqs rreqs nrpms excludes).isSome = true) := by
  constructor
  · intro rreqs remove acc
    apply cr1F_isSome
    have h1 : (unseen rreqs acc).card ≤ (valsOf rreqs).toFinset.card :=
      Finset.card_filter_le _ _
    have h2 : crBound rreqs = (valsOf rreqs).toFinset.card + 1 := rfl
    omega
  · intro name reqs rreqs nrpms ex
    exact ls1F_isSome (nrpms + 1) name nrpms ex (by omega)

/-! ## C9: failure conditions of pcmp and find_latest -/

/-- `pcmp` fails exactly on records with different names (the comparator
itself, `yum.compareEVR`, is total). -/
theorem pcmp_none_iff (p q : Pkg) : pcmp p q = Option.none ↔ p.name ≠ q.name := by
  unfold pcmp
  by_cases h : p.name = q.name <;> simp [h]

/-- Insertion with a comparator total against the list succeeds, with one
more element, all coming from `x` or the list. -/
theorem insertCmpM_total {x : Pkg} :
    ∀ {l : List Pkg}, (∀ y ∈ l, (pcmp x y).isSome = true) →
      ∃ l', insertCmpM pcmp x l = some l' ∧ l'.length = l.length + 1 ∧
        ∀ z ∈ l', z = x ∨ z ∈ l := by
  intro l
  induction l with
  | nil => intro _; exact ⟨[x], rfl, rfl, by simp⟩
  | cons y ys ih =>
    intro h
    have hy := h y (by simp)
    cases hc : pcmp x y with
    | none => rw [hc] at hy; exact absurd hy (by simp)
    | some c =>
      simp only [insertCmpM, hc]
      by_cases hlt : c < 0
      · rw [if_pos hlt]
        refine ⟨x :: y :: ys, rfl, by simp, ?_⟩
        intro z hz
        simpa using hz
      · rw [if_neg hlt]
        rcases ih (fun z hz => h z (by simp [hz])) with ⟨l', hl', hlen, hmem⟩
        rw [hl']
        refine ⟨y :: l', rfl, by simp [hlen], ?_⟩
        intro z hz
        rcases List.mem_cons.mp hz with hz | hz
        · exact Or.inr (by simp [hz])
        · rcases hmem z hz with hz | hz
          · exact Or.inl hz
          · exact Or.inr (by simp [hz])

/-- A comparison sort under a comparator total on the list succeeds and
permutes only the list's own elements. -/
theorem sortCmpM_total :
    ∀ {l : List Pkg}, (∀ a ∈ l, ∀ b ∈ l, (pcmp a b).isSome = true) →
      ∃ s, sortCmpM pcmp l = some s ∧ s.length = l.length ∧ ∀ z ∈ s, z ∈ l := by
  intro l
  induction l with
  | nil => intro _; exact ⟨[], rfl, rfl, by simp⟩
  | cons x xs ih =>
    intro h
    rcases ih (fun a ha b hb => h a (by simp [ha]) b (by simp [hb])) with
      ⟨s, hs, hlen, hmem⟩
    have hins : ∀ y ∈ s, (pcmp x y).isSome = true := fun y hy =>
      h x (by simp) y (by simp [hmem y hy])
    rcases insertCmpM_total hins with ⟨l', hl', hlen', hmem'⟩
    refine ⟨l', ?_, by simp [hlen', hlen], ?_⟩
    · simp only [sortCmpM, hs, hl']
    · intro z hz
      rcases hmem' z hz with hz | hz
      · simp [hz]
      · simp [hmem z hz]

/-- `find_latest` succeeds on a non-empty list of same-named records and
returns one of them. -/
theorem find_latest_total {ps : List Pkg} (hne : ps ≠ [])
    (hsame : ∀ p ∈ ps, ∀ q ∈ ps, p.name = q.name) :
    ∃ p, find_latest ps = some p ∧ p ∈ ps := by
  have htot : ∀ a ∈ ps, ∀ b ∈ ps, (pcmp a b).isSome = true := by
    intro a ha b hb
    simp [pcmp, hsame a ha b hb]
  rcases sortCmpM_total htot with ⟨s, hs, hlen, hmem⟩
  have hsne : s ≠ [] := by
    intro h
    subst h
    exact hne ((List.length_eq_zero).mp hlen.symm)
  unfold find_latest
  rw [if_neg hne, hs]
  show ∃ p, s.getLast? = some p ∧ p ∈ ps
  cases hgl : s.getLast? with
  | none => exact absurd (List.getLast?_eq_none_iff.mp hgl) hsne
  | some p => exact ⟨p, rfl, hmem p (List.mem_of_mem_getLast? hgl)⟩

/-- C9 (counterexample): `find_latest` can fail on a non-empty input:
on a two-element list with two different names the sort compares the
pair and `pcmp`'s same-name assertion fires. -/
theorem c9_counterexample :
    ([⟨"bash", "4.2", "1", Epoch.int 0, "x86_64"⟩,
      ⟨"zsh", "5.0", "1", Epoch.int 0, "x86_64"⟩] : List Pkg) ≠ [] ∧
    find_latest [⟨"bash", "4.2", "1", Epoch.int 0, "x86_64"⟩,
      ⟨"zsh", "5.0", "1", Epoch.int 0, "x86_64"⟩] = Option.none :=
  ⟨by decide, rfl⟩

/-- C9 (amended): `pcmp` fails precisely on records with different names;
`find_latest` fails on the empty list, and on a non-empty list of
same-named records it never fails — but a non-empty mixed-name input can
also fail, through `pcmp`'s assertion (see the counterexample). -/
theorem c9_failure_conditions :
    (∀ p q : Pkg, pcmp p q = Option.none ↔ p.name ≠ q.name) ∧
    find_latest [] = Option.none ∧
    (∀ ps : List Pkg, ps ≠ [] → (∀ p ∈ ps, ∀ q ∈ ps, p.name = q.name) →
      (find_latest ps).isSome = true) := by
  refine ⟨pcmp_none_iff, rfl, ?_⟩
  intro ps hne hsame
  rcases find_latest_total hne hsame with ⟨p, hp, _⟩
  simp [hp]

/-- C9 (witness): the failure conditions at concrete inputs. -/
theorem c9_failure_conditions_witness :
    pcmp ⟨"bash", "4.2", "1", Epoch.int 0, "x86_64"⟩
        ⟨"zsh", "5.0", "1", Epoch.int 0, "x86_64"⟩ = Option.none ∧
    (find_latest [⟨"bash", "4.2", "1", Epoch.int 0, "x86_64"⟩,
        ⟨"bash", "4.3", "1", Epoch.int 0, "x86_64"⟩]).isSome = true := by
  obtain ⟨h1, _, h3⟩ := c9_failure_conditions
  constructor
  · exact (h1 _ _).mpr (by decide)
  · exact h3 [⟨"bash", "4.2", "1", Epoch.int 0, "x86_64"⟩,
      ⟨"bash", "4.3", "1", Epoch.int 0, "x86_64"⟩] (by decide) (by decide)

/-! ## C10: shape of find_latests output -/

theorem charListLe_total : ∀ (a b : List Char),
    charListLe a b = true ∨ charListLe b a = true := by
  intro a
  induction a with
  | nil => intro b; exact Or.inl rfl
  | cons x xs ih =>
    intro b
    cases b with
    | nil => exact Or.inr rfl
    | cons y ys =>
      simp only [charListLe]
      by_cases h1 : x.toNat < y.toNat
      · left; simp [h1]
      · by_cases h2 : y.toNat < x.toNat
        · right; simp [h2, h1]
        · have he : ¬ x.toNat < y.toNat := h1
          rcases ih ys with h | h <;> simp [h1, h2, h]

theorem charListLe_trans : ∀ {a b c : List Char},
    charListLe a b = true → charListLe b c = true → charListLe a c = true := by
  intro a
  induction a with
  | nil => intro b c _ _; rfl
  | cons x xs ih =>
    intro b c hab hbc
    cases b with
    | nil => exact absurd hab (by simp [charListLe])
    | cons y ys =>
      cases c with
      | nil => exact absurd hbc (by simp [charListLe])
      | cons z zs =>
        simp only [charListLe] at hab hbc ⊢
        by_cases hxy : x.toNat < y.toNat
        · by_cases hyz : y.toNat < z.toNat
          · simp [show x.toNat < z.toNat by omega]
          · by_cases hzy : z.toNat < y.toNat
            · rw [if_neg hyz, if_pos hzy] at hbc
              exact absurd hbc (by simp)
            · simp [show x.toNat < z.toNat by omega]
        · by_cases hyx : y.toNat < x.toNat
          · rw [if_neg hxy, if_pos hyx] at hab
            exact absurd hab (by simp)
          · rw [if_neg hxy, if_neg hyx] at hab
            by_cases hyz : y.toNat < z.toNat
            · simp [show x.toNat < z.toNat by omega]
            · by_cases hzy : z.toNat < y.toNat
              · rw [if_neg hyz, if_pos hzy] at hbc
                exact absurd hbc (by simp)
              · rw [if_neg hyz, if_neg hzy] at hbc
                have hxz : ¬ x.toNat < z.toNat := by omega
                have hzx : ¬ z.toNat < x.toNat := by omega
                simp [hxz, hzx, ih hab hbc]

theorem charListLe_antisymm : ∀ {a b : List Char},
    charListLe a b = true → charListLe b a = true → a = b := by
  intro a
  induction a with
  | nil =>
    intro b _ hba
    cases b with
    | nil => rfl
    | cons y ys => exact absurd hba (by simp [charListLe])
  | cons x xs ih =>
    intro b hab hba
    cases b with
    | nil => exact absurd hab (by simp [charListLe])
    | cons y ys =>
      simp only [charListLe] at hab hba
      by_cases hxy : x.toNat < y.toNat
      · rw [if_neg (by omega), if_pos hxy] at hba
        exact absurd hba (by simp)
      · by_cases hyx : y.toNat < x.toNat
        · rw [if_neg hxy, if_pos hyx] at hab
          exact absurd hab (by simp)
        · rw [if_neg hxy, if_neg hyx] at hab
          rw [if_neg hyx, if_neg hxy] at hba
          have hx : x = y := by
            apply Char.ext
            apply UInt32.ext
            simp only [Char.toNat] at hxy hyx
            omega
          rw [hx, ih hab hba]

theorem strLe_total (a b : String) : strLe a b = true ∨ strLe b a = true :=
  charListLe_total a.data b.data

theorem strLe_trans {a b c : String} (h1 : strLe a b = true)
    (h2 : strLe b c = true) : strLe a c = true :=
  charListLe_trans h1 h2

theorem strLe_antisymm {a b : String} (h1 : strLe a b = true)
    (h2 : strLe b a = true) : a = b := by
  cases a with
  | mk da =>
    cases b with
    | mk db =>
      have : da = db := charListLe_antisymm h1 h2
      rw [this]

theorem strLt_trans {a b c : String} (h1 : strLt a b) (h2 : strLt b c) :
    strLt a c := by
  refine ⟨strLe_trans h1.1 h2.1, ?_⟩
  intro hac
  subst hac
  exact h2.2 (strLe_antisymm h2.1 h1.1)

/-- The name-ordering on records used by `sort_by_names`. -/
def pkgLeP (a b : Pkg) : Prop := strLe a.name b.name = true

theorem mem_insertPkg {x z : Pkg} : ∀ {l : List Pkg},
    z ∈ insertPkg x l ↔ z = x ∨ z ∈ l := by
  intro l
  induction l with
  | nil => simp [insertPkg]
  | cons y ys ih =>
    simp only [insertPkg]
    by_cases h : pkgNameLe x y
    · simp [h]
    · simp only [h, Bool.false_eq_true, ite_false, List.mem_cons, ih]
      tauto

theorem insertPkg_sorted {x : Pkg} : ∀ {l : List Pkg},
    l.Pairwise pkgLeP → (insertPkg x l).Pairwise pkgLeP := by
  intro l
  induction l with
  | nil => intro _; simp [insertPkg]
  | cons y ys ih =>
    intro hp
    rcases List.pairwise_cons.mp hp with ⟨hy, hys⟩
    simp only [insertPkg]
    by_cases h : pkgNameLe x y
    · rw [if_pos h]
      refine List.pairwise_cons.mpr ⟨?_, hp⟩
      intro z hz
      rcases List.mem_cons.mp hz with hz | hz
      · subst hz; exact h
      · exact strLe_trans h (hy z hz)
    · rw [if_neg h]
      have hyx : pkgLeP y x := by
        rcases strLe_total x.name y.name with ht | ht
        · exact absurd ht h
        · exact ht
      refine List.pairwise_cons.mpr ⟨?_, ih hys⟩
      intro z hz
      rcases mem_insertPkg.mp hz with hz | hz
      · subst hz; exact hyx
      · exact hy z hz

theorem sort_by_names_sorted (l : List Pkg) :
    (sort_by_names l).Pairwise pkgLeP := by
  induction l with
  | nil => simp [sort_by_names]
  | cons x xs ih => exact insertPkg_sorted ih

theorem mem_sort_by_names {z : Pkg} : ∀ {l : List Pkg},
    z ∈ sort_by_names l ↔ z ∈ l := by
  intro l
  induction l with
  | nil => simp [sort_by_names]
  | cons x xs ih => simp [sort_by_names, mem_insertPkg, ih]

/-- `groupRuns` equation: head joins the existing first run. -/
theorem groupRuns_cons_eq {x : Pkg} {xs : List Pkg} {k' : String} {g' : List Pkg}
    {rest : List (String × List Pkg)} (hgr : groupRuns xs = (k', g') :: rest) :
    groupRuns (x :: xs) =
      if x.name = k' then (k', x :: g') :: rest
      else (x.name, [x]) :: (k', g') :: rest := by
  simp only [groupRuns, hgr]

/-- `groupRuns` equation: head of an exhausted tail opens a fresh run. -/
theorem groupRuns_cons_nil {x : Pkg} {xs : List Pkg} (hgr : groupRuns xs = []) :
    groupRuns (x :: xs) = [(x.name, [x])] := by
  simp only [groupRuns, hgr]

/-- Every group produced by `groupRuns` is non-empty and homogeneous in
its key name. -/
theorem groupRuns_group_mem : ∀ {l : List Pkg} {k : String} {g : List Pkg},
    (k, g) ∈ groupRuns l → g ≠ [] ∧ ∀ p ∈ g, p.name = k := by
  intro l
  induction l with
  | nil =>
    intro k g h
    exact absurd h (by simp [groupRuns])
  | cons x xs ih =>
    intro k g h
    cases hgr : groupRuns xs with
    | nil =>
      rw [groupRuns_cons_nil hgr] at h
      have h2 := List.mem_singleton.mp h
      have hk : k = x.name := by
        have := congrArg Prod.fst h2
        simpa using this
      have hg : g = [x] := by
        have := congrArg Prod.snd h2
        simpa using this
      subst hk hg
      exact ⟨by simp, by simp⟩
    | cons kg rest =>
      rcases kg with ⟨k', g'⟩
      rw [groupRuns_cons_eq hgr] at h
      by_cases hname : x.name = k'
      · rw [if_pos hname] at h
        rcases List.mem_cons.mp h with h | h
        · have hk2 : k = k' := by
            have := congrArg Prod.fst h
            simpa using this
          have hg : g = x :: g' := by
            have := congrArg Prod.snd h
            simpa using this
          subst hk2 hg
          refine ⟨by simp, ?_⟩
          intro p hp
          rcases List.mem_cons.mp hp with hp | hp
          · subst hp; exact hname
          · exact (ih (hgr ▸ List.mem_cons_self (k, g') rest)).2 p hp
        · exact ih (hgr ▸ List.mem_cons_of_mem _ h)
      · rw [if_neg hname] at h
        rcases List.mem_cons.mp h with h | h
        · have hkk : k = x.name := by
            have := congrArg Prod.fst h
            simpa using this
          have hg : g = [x] := by
            have := congrArg Prod.snd h
            simpa using this
          subst hkk hg
          exact ⟨by simp, by simp⟩
        · exact ih (hgr ▸ h)

/-- `groupRuns` of a cons starts with a group keyed by the head's name. -/
theorem groupRuns_head_name (x : Pkg) (xs : List Pkg) :
    ∃ g rest, groupRuns (x :: xs) = (x.name, g) :: rest := by
  cases hgr : groupRuns xs with
  | nil => exact ⟨[x], [], groupRuns_cons_nil hgr⟩
  | cons kg rest =>
    rcases kg with ⟨k', g'⟩
    by_cases hname : x.name = k'
    · refine ⟨x :: g', rest, ?_⟩
      rw [groupRuns_cons_eq hgr, if_pos hname, hname]
    · refine ⟨[x], (k', g') :: rest, ?_⟩
      rw [groupRuns_cons_eq hgr, if_neg hname]

/-- On a list sorted by name, the group keys are strictly ascending. -/
theorem groupRuns_keys_sorted : ∀ {l : List Pkg}, l.Pairwise pkgLeP →
    ((groupRuns l).map Prod.fst).Pairwise strLt := by
  intro l
  induction l with
  | nil => intro _; simp [groupRuns]
  | cons x xs ih =>
    intro hp
    rcases List.pairwise_cons.mp hp with ⟨hx, hxs⟩
    have ihk := ih hxs
    cases hgr : groupRuns xs with
    | nil => rw [groupRuns_cons_nil hgr]; simp
    | cons kg rest =>
      rcases kg with ⟨k', g'⟩
      have hk'le : strLe x.name k' = true := by
        cases xs with
        | nil => exact absurd hgr (by simp [groupRuns])
        | cons x' xs' =>
          rcases groupRuns_head_name x' xs' with ⟨g2, rest2, hh⟩
          rw [hgr] at hh
          have hk2 : k' = x'.name := by
            have := congrArg (fun t => t.headD ("", []) |>.1) hh
            simpa using this
          rw [hk2]
          exact hx x' (by simp)
      rw [groupRuns_cons_eq hgr]
      rw [hgr] at ihk
      by_cases hname : x.name = k'
      · rw [if_pos hname]
        simpa using ihk
      · rw [if_neg hname]
        simp only [List.map_cons] at ihk ⊢
        refine List.pairwise_cons.mpr ⟨?_, ihk⟩
        intro n hn
        rcases List.mem_cons.mp hn with hn | hn
        · subst hn
          exact ⟨hk'le, hname⟩
        · have hk'lt : strLt k' n :=
            (List.pairwise_cons.mp ihk).1 n hn
          exact strLt_trans ⟨hk'le, hname⟩ hk'lt

/-- The group keys are exactly the names occurring in the list. -/
theorem groupRuns_keys_mem : ∀ {l : List Pkg} {n : String},
    n ∈ (groupRuns l).map Prod.fst ↔ n ∈ l.map Pkg.name := by
  intro l
  induction l with
  | nil => intro n; simp [groupRuns]
  | cons x xs ih =>
    intro n
    cases hgr : groupRuns xs with
    | nil =>
      rw [groupRuns_cons_nil hgr]
      cases hxs : xs with
      | nil => simp
      | cons x' xs' =>
        rcases groupRuns_head_name x' xs' with ⟨g2, rest2, hh⟩
        rw [← hxs, hgr] at hh
        exact absurd hh (by simp)
    | cons kg rest =>
      rcases kg with ⟨k', g'⟩
      rw [groupRuns_cons_eq hgr]
      have h1 : n ∈ ((k', g') :: rest).map Prod.fst ↔ n ∈ xs.map Pkg.name := by
        rw [← hgr]; exact ih
      by_cases hname : x.name = k'
      · rw [if_pos hname]
        simp only [List.map_cons, List.mem_cons] at h1 ⊢
        rw [h1]
        constructor
        · exact Or.inr
        · rintro (h | h)
          · rw [← h1]
            left
            exact h.trans hname
          · exact h
      · rw [if_neg hname]
        simp only [List.map_cons, List.mem_cons] at h1 ⊢
        rw [h1]

/-- `find_latests`' map over homogeneous non-empty groups succeeds and
returns, per group, a member record carrying the group's key name. -/
theorem find_latests_on_groups : ∀ {gs : List (String × List Pkg)},
    (∀ kg ∈ gs, kg.2 ≠ [] ∧ ∀ p ∈ kg.2, p.name = kg.1) →
    ∃ out, mapO (fun g => find_latest g.2) gs = some out ∧
      out.map Pkg.name = gs.map Prod.fst := by
  intro gs
  induction gs with
  | nil => intro _; exact ⟨[], rfl, rfl⟩
  | cons kg gs ih =>
    intro h
    rcases h kg (by simp) with ⟨hne, hnames⟩
    have hsame : ∀ p ∈ kg.2, ∀ q ∈ kg.2, p.name = q.name := by
      intro p hp q hq
      rw [hnames p hp, hnames q hq]
    rcases find_latest_total hne hsame with ⟨p, hp, hpmem⟩
    rcases ih (fun kg' hkg' => h kg' (by simp [hkg'])) with ⟨out, hout, hmap⟩
    refine ⟨p :: out, ?_, ?_⟩
    · simp [mapO, hp, hout]
    · simp [hmap, hnames p hpmem]

/-- C10: `find_latests` (at its default grouping key) always succeeds and
returns exactly one package per distinct input name — the name multiset
of the output is duplicate-free and covers exactly the input's names —
and the output is in strictly ascending name order, because
`group_by_keys_g` globally sorts by the grouping key before forming
groups. -/
theorem c10_find_latests_shape (ps : List Pkg) :
    ∃ out, find_latests ps = some out ∧
      (out.map Pkg.name).Pairwise strLt ∧
      (out.map Pkg.name).Nodup ∧
      (∀ n, n ∈ out.map Pkg.name ↔ n ∈ ps.map Pkg.name) := by
  have hsorted := sort_by_names_sorted ps
  rcases find_latests_on_groups
      (fun kg hkg => groupRuns_group_mem (by exact hkg)) with ⟨out, hout, hmap⟩
  refine ⟨out, hout, ?_, ?_, ?_⟩
  · rw [hmap]
    exact groupRuns_keys_sorted hsorted
  · rw [hmap]
    exact (groupRuns_keys_sorted hsorted).imp fun h => h.2
  · intro n
    rw [hmap, groupRuns_keys_mem]
    constructor
    · intro h
      rcases List.mem_map.mp h with ⟨p, hp, hn⟩
      exact List.mem_map.mpr ⟨p, mem_sort_by_names.mp hp, hn⟩
    · intro h
      rcases List.mem_map.mp h with ⟨p, hp, hn⟩
      exact List.mem_map.mpr ⟨p, mem_sort_by_names.mpr hp, hn⟩

/-- C1: for the requirement graph `{A requires B, C requires A}` — whose
reversed map sends `A` to `{C}` and `B` to `{A}` — with `excludes={"C"}`
and `toRemove=["A"]`, `compute_removed` returns the empty set, `A` and its
dependent closure `{A, C}` are absorbed into the working excludes list,
and a subsequent `"A"` entry of the same call is blocked by the grown
excludes list (same empty result and same final state). -/
theorem c1_exclusion_veto :
    compute_removed_full ["A"] [("A", ["C"]), ("B", ["A"])] [] ["C"] =
      some ([], [], ["C", "A", "A", "C"]) ∧
    "A" ∈ (["C", "A", "A", "C"] : List String) ∧
    "C" ∈ (["C", "A", "A", "C"] : List String) ∧
    compute_removed_full ["A", "A"] [("A", ["C"]), ("B", ["A"])] [] ["C"] =
      some ([], [], ["C", "A", "A", "C"]) :=
  ⟨rfl, by decide, by decide, rfl⟩

/-- C4: `compute_removed`'s default arguments `acc=[]` and `excludes=[]`
are module-level list objects that `compute_removed_g` mutates in place,
so they are shared state across calls of the same process: with
`rreqs = {"Z": []}`, a first default-argument call with `removes=["A"]`
returns `["A"]`, but after an interleaved call with `removes=["B"]` the
very same call (identical arguments) returns `["A", "B"]`. -/
theorem c4_default_argument_sharing :
    compute_removed_call ["A"] [("Z", [])] ⟨[], []⟩ =
      some (["A"], ⟨["A", "A"], []⟩) ∧
    compute_removed_call ["B"] [("Z", [])] ⟨["A", "A"], []⟩ =
      some (["A", "B"], ⟨["A", "A", "B", "A", "A", "B"], []⟩) ∧
    compute_removed_call ["A"] [("Z", [])] ⟨["A", "A", "B", "A", "A", "B"], []⟩ =
      some (["A", "B"],
        ⟨["A", "A", "B", "A", "A", "B", "A", "A", "A", "B", "A", "A", "B", "A"], []⟩) ∧
    (["A"] : List String) ≠ ["A", "B"] :=
  ⟨rfl, rfl, rfl, by decide⟩

/-- C5: `normalize_epoch` sends `None` and digit-free strings to `0` and
keeps int epochs, but on a string that contains a digit without being a
numeric literal (e.g. `"1a"`) the guard regex `.*(\d+).*` matches and
`int(epoch)` raises `ValueError` (`none`), and `normalize` propagates the
failure — contradicting "defaults to 0 when absent or non-numeric". -/
theorem c5_epoch_normalization :
    normalize_epoch Epoch.none = some 0 ∧
    normalize_epoch (Epoch.str "(none)") = some 0 ∧
    normalize_epoch (Epoch.str " ") = some 0 ∧
    normalize_epoch (Epoch.str "2") = some 2 ∧
    normalize_epoch (Epoch.int 5) = some 5 ∧
    normalize_epoch (Epoch.str "1a") = Option.none ∧
    normalize ⟨"foo", "1.0", "1", Epoch.str "1a", "x86_64"⟩ = Option.none :=
  ⟨rfl, rfl, rfl, rfl, rfl, rfl, rfl⟩

end Rpmkit
